import Mathlib

/-!
Shallow embedding of the hermes tabular data-preparation pipeline
(`hermes/utilities/data_normalization.py`, `hermes/data/base_data.py`,
`hermes/datasets/regression.py`).

Modelling conventions:
* A pandas numeric value is a real number; `NaN` (a missing value) is `none`,
  so a numeric value is `Option ℝ` and a column (`pandas.Series` viewed
  positionally) is `List (Option ℝ)`.
* A `pandas.Series` together with its integer index labels is
  `List (ℕ × Option ℝ)`; index alignment on `DataFrame.__setitem__` is the
  function `align` below.
* pandas aggregations (`mean`, `min`, `max`, `std`, `median`, `sum`) skip
  missing values (`skipna=True` default); `std` uses `ddof=1`; on too few
  values they return `NaN`, i.e. `none`.
* Python `** 0.5` on a nonnegative float is `Real.sqrt`; the claims are only
  evaluated at nonnegative radicands.
* `IntEnum` members are their integer values (`auto()` numbering from 1).
* A Python value that may be a series, a bool or `None` (the dynamically
  typed `raw_data` argument of `L1`/`L2`) is the sum type `PyVal`.
-/

noncomputable section

/-- A column of numeric values; `none` is a missing entry (`NaN`). -/
abbrev Col : Type := List (Option ℝ)

/-- A pandas `Series` with its integer index labels. -/
abbrev PSeries : Type := List (ℕ × Option ℝ)

/-- Attach consecutive index labels to a column's entries, starting at `i`. -/
def toSeriesAux (i : ℕ) : Col → PSeries
  | [] => []
  | x :: t => (i, x) :: toSeriesAux (i + 1) t

/-- View an index-aligned column as a series indexed by position,
like a freshly built `DataFrame` column with the default `RangeIndex`. -/
def toSeries (c : Col) : PSeries := toSeriesAux 0 c

/-- The non-missing values of a column, in order (what pandas
`skipna=True` aggregations operate on). -/
def nonMissing (c : Col) : List ℝ := c.reduceOption

/-- Elementwise application of a scalar function to a column;
missing entries stay missing (`NaN` propagates). -/
def mapCol (f : ℝ → ℝ) (c : Col) : Col := c.map (Option.map f)

/-- A dynamically typed Python value, as passed in the `raw_data` slot of
`L1`/`L2`: a series, a bool (the result of the positional-argument slip in
`_parameter_tuning`), or `None` (the parameter's default). -/
inductive PyVal : Type where
  | series : Col → PyVal
  | bool : Bool → PyVal
  | pynone : PyVal

/-- `minmax` from `hermes/utilities/data_normalization.py`, scalar semantics
(pandas broadcasts the formula over the series elementwise):
reverse is `data * (max_ - min_) + min_`, forward is
`(data - min_) / (max_ - min_)`. -/
def minmax (data min_ max_ : ℝ) (reverse : Bool) : ℝ :=
  if reverse then data * (max_ - min_) + min_ else (data - min_) / (max_ - min_)

/-- `std` from `hermes/utilities/data_normalization.py`, scalar semantics:
reverse is `data * std_ + mean_`, forward is `(data - mean_) / std_`. -/
def std (data mean_ std_ : ℝ) (reverse : Bool) : ℝ :=
  if reverse then data * std_ + mean_ else (data - mean_) / std_

/-- Sum of absolute values of a column (`data.apply(abs).sum(axis=0)`,
skipping missing values as pandas `sum` does). -/
def sumAbs (c : Col) : ℝ := ((nonMissing c).map (fun x => |x|)).sum

/-- Sum of the values of a column (`data.sum(axis=0)`). -/
def colSum (c : Col) : ℝ := (nonMissing c).sum

/-- `L1` from `hermes/utilities/data_normalization.py`:
reverse is `data * raw_data.apply(abs).sum(axis=0)` (a runtime error, `none`,
when `raw_data` is not a series), forward is
`data / data.apply(abs).sum(axis=0)`. -/
def L1 (data : Col) (raw_data : PyVal) (reverse : Bool) : Option Col :=
  if reverse then
    match raw_data with
    | PyVal.series s => some (mapCol (fun x => x * sumAbs s) data)
    | _ => none
  else
    some (mapCol (fun x => x / sumAbs data) data)

/-- `L2` from `hermes/utilities/data_normalization.py`:
reverse is `data * (raw_data.sum(axis=0)) ** 0.5` (a runtime error, `none`,
when `raw_data` is not a series), forward is
`data / (data.sum(axis=0)) ** 0.5`. Note the radicand is the plain sum of
the values, not the sum of their squares. -/
def L2 (data : Col) (raw_data : PyVal) (reverse : Bool) : Option Col :=
  if reverse then
    match raw_data with
    | PyVal.series s => some (mapCol (fun x => x * Real.sqrt (colSum s)) data)
    | _ => none
  else
    some (mapCol (fun x => x / Real.sqrt (colSum data)) data)

/-- Sum of squares of the non-missing values of a column. -/
def sumSq (c : Col) : ℝ := ((nonMissing c).map (fun x => x ^ 2)).sum

/-- Modelled from the spec's words, for comparison with the source's `L2`:
forward `x / sqrt(sum(x^2))`, inverse `x' * sqrt(sum(x_raw^2))` with the
sum of squares of the raw column. -/
def L2specFormula (data : Col) (raw_data : Col) (reverse : Bool) : Col :=
  if reverse then mapCol (fun x => x * Real.sqrt (sumSq raw_data)) data
  else mapCol (fun x => x / Real.sqrt (sumSq data)) data

/-- Minimum of a list (pandas `Series.min` over the non-missing values):
`none` on an empty list. -/
def lmin : List ℝ → Option ℝ
  | [] => none
  | x :: xs => some (xs.foldl min x)

/-- Maximum of a list (pandas `Series.max`): `none` on an empty list. -/
def lmax : List ℝ → Option ℝ
  | [] => none
  | x :: xs => some (xs.foldl max x)

/-- Arithmetic mean (pandas `Series.mean`): `none` on an empty list. -/
def lmean (l : List ℝ) : Option ℝ :=
  if l = [] then none else some (l.sum / l.length)

/-- Insert a value into a sorted list, keeping it sorted. -/
def insortS (a : ℝ) : List ℝ → List ℝ
  | [] => [a]
  | b :: t => if a ≤ b then a :: b :: t else b :: insortS a t

/-- Insertion sort, ascending (the sort underlying pandas `Series.median`). -/
def isort : List ℝ → List ℝ
  | [] => []
  | a :: t => insortS a (isort t)

/-- Median (pandas `Series.median`): sort ascending; for odd length the
middle element, for even length the mean of the two middle elements;
`none` on an empty list. -/
def lmedian (l : List ℝ) : Option ℝ :=
  if l = [] then none
  else
    some (((isort l).getD ((l.length - 1) / 2) 0 + (isort l).getD (l.length / 2) 0) / 2)

/-- Sample standard deviation (pandas `Series.std`, `ddof=1`):
`none` (`NaN`) on fewer than two values. -/
def lstd (l : List ℝ) : Option ℝ :=
  if l.length < 2 then none
  else
    some (Real.sqrt ((l.map (fun x => (x - l.sum / l.length) ^ 2)).sum / (l.length - 1 : ℕ)))

/-- The per-column numeric statistics record built by
`NumericalData.__init__` in `hermes/data/base_data.py`
(the `key` attribute, a plain name string, is omitted). -/
structure NumericalStats : Type where
  mean_ : Option ℝ
  min_ : Option ℝ
  max_ : Option ℝ
  std_ : Option ℝ
  var_ : Option ℝ
  median_ : Option ℝ

/-- `NumericalData.__init__`: the pandas aggregations skip missing values;
`var_` is defined as `std_ ** 2` (and `NaN ** 2` is `NaN`). -/
def numericalData (c : Col) : NumericalStats :=
  { mean_ := lmean (nonMissing c)
    min_ := lmin (nonMissing c)
    max_ := lmax (nonMissing c)
    std_ := lstd (nonMissing c)
    var_ := (lstd (nonMissing c)).map (fun s => s ^ 2)
    median_ := lmedian (nonMissing c) }

namespace MissingData

/-- `MissingData.MEAN` (`IntEnum`, `auto()` from 1). -/
def MEAN : ℕ := 1
/-- `MissingData.DELETE`. -/
def DELETE : ℕ := 2
/-- `MissingData.STD`. -/
def STD : ℕ := 3
/-- `MissingData.MIN`. -/
def MIN : ℕ := 4
/-- `MissingData.MAX`. -/
def MAX : ℕ := 5
/-- `MissingData.MODE`. -/
def MODE : ℕ := 6

end MissingData

namespace Normalization

/-- `Normalization.MINMAX` (`IntEnum`, `auto()` from 1). -/
def MINMAX : ℕ := 1
/-- `Normalization.STD`. -/
def STD : ℕ := 2
/-- `Normalization.L1`. -/
def L1 : ℕ := 3
/-- `Normalization.L2`. -/
def L2 : ℕ := 4
/-- `Normalization.ROBUST_SCALER`. -/
def ROBUST_SCALER : ℕ := 5

end Normalization

/-- `Series.fillna(v)`: replace missing entries by `v`; when `v` is itself
`NaN` (`none`) the entries stay missing. -/
def fillna (v : Option ℝ) (s : PSeries) : PSeries :=
  s.map (fun p => (p.1, match p.2 with | some r => some r | none => v))

/-- `Series.dropna`: keep the entries holding a value, with their index
labels (for a `Series`, the `how` keyword is inert). -/
def dropna (s : PSeries) : PSeries :=
  s.filter (fun p => p.2.isSome)

/-- `DataFrame.__setitem__` with a series value: the series is aligned on
the frame's index of `n` rows; a row label absent from the series becomes
missing (`NaN`). -/
def align (n : ℕ) (s : PSeries) : Col :=
  (List.range n).map (fun i =>
    match s.find? (fun p => p.1 == i) with
    | some p => p.2
    | none => none)

/-- `Regression._missing_data` from `hermes/datasets/regression.py`.
The `MODE` branch reads `key.mode_`, an attribute `NumericalData` never
sets, so it fails at run time (`none`); the final `else` returns the data
unchanged. -/
def missing_data (data : PSeries) (key : NumericalStats) (md : ℕ) : Option PSeries :=
  if md = MissingData.MEAN then some (fillna key.mean_ data)
  else if md = MissingData.STD then some (fillna key.std_ data)
  else if md = MissingData.MAX then some (fillna key.max_ data)
  else if md = MissingData.MIN then some (fillna key.min_ data)
  else if md = MissingData.DELETE then some (dropna data)
  else if md = MissingData.MODE then none
  else some data

/-- `minmax` broadcast over a series whose statistics may be `NaN`
(an arithmetic combination with `NaN` is `NaN`). -/
def minmaxCol (data : Col) (mn mx : Option ℝ) (reverse : Bool) : Col :=
  data.map (fun o => o.bind (fun x => mn.bind (fun a => mx.map (fun b => minmax x a b reverse))))

/-- `std` broadcast over a series whose statistics may be `NaN`. -/
def stdCol (data : Col) (mean? sd? : Option ℝ) (reverse : Bool) : Col :=
  data.map (fun o => o.bind (fun x => mean?.bind (fun a => sd?.map (fun b => std x a b reverse))))

/-- `Regression._parameter_tuning` from `hermes/datasets/regression.py`.
The `L1`/`L2` branches call `L1(data, reverse)` and `L2(data, reverse)`
with `reverse` passed positionally, so it lands in the functions'
`raw_data` parameter and their own `reverse` parameter keeps its default
`False`. The `ROBUST_SCALER` branch fails at run time (`none`): it calls
`robust_scaler`, which the normalization module does not define, on
`col_data.quantile75`/`quantile25`, attributes `NumericalData` never sets.
The final `else` returns the data unchanged. -/
def parameter_tuning (data : Col) (col_data : NumericalStats) (normalization : ℕ)
    (reverse : Bool) : Option Col :=
  if normalization = Normalization.MINMAX then
    some (minmaxCol data col_data.min_ col_data.max_ reverse)
  else if normalization = Normalization.L1 then L1 data (PyVal.bool reverse) false
  else if normalization = Normalization.L2 then L2 data (PyVal.bool reverse) false
  else if normalization = Normalization.STD then
    some (stdCol data col_data.mean_ col_data.std_ reverse)
  else if normalization = Normalization.ROBUST_SCALER then none
  else some data

/-- Look a column up in a column-oriented dataset (`input_data[i]`). -/
def lookupCol (df : List (String × Col)) (name : String) : Option Col :=
  (df.find? (fun p => p.1 == name)).map (fun p => p.2)

/-- Replace a named column of a dataset (`input_data[i] = series`, after
index alignment). -/
def updateCol (df : List (String × Col)) (name : String) (c : Col) : List (String × Col) :=
  df.map (fun p => if p.1 == name then (p.1, c) else p)

/-- The per-numerical-column loop of `Regression.prepare_data`: for each
listed column, build its statistics from the raw values, run the
missing-data step, assign the result back into `input_data` (index
alignment), run parameter tuning on the assigned column, and record the
tuned column in the `model` mapping. A failing step aborts the run. -/
def prepareLoop (df : List (String × Col)) (cols : List String) (md norm : ℕ)
    (acc : List (String × Col)) :
    Option (List (String × Col) × List (String × Col)) :=
  match cols with
  | [] => some (df, acc)
  | i :: rest =>
    match lookupCol df i with
    | none => none
    | some col =>
      match missing_data (toSeries col) (numericalData col) md with
      | none => none
      | some s =>
        match parameter_tuning (align col.length s) (numericalData col) norm false with
        | none => none
        | some tuned =>
          prepareLoop (updateCol df i (align col.length s)) rest md norm (acc ++ [(i, tuned)])

/-- `Regression.prepare_data` from `hermes/datasets/regression.py`,
restricted to its numerical block (the categorical block reads and encodes
disjoint columns and is modelled separately by `uniqueFS`, `mkEncoder` and
`one_hot` below). Returns the final state of the caller's `input_data`
together with the prepared output columns that are concatenated into
`self.model.data`, in processing order. -/
def prepare_data (input_data : List (String × Col)) (numerical_cols : List String)
    (normalization md : ℕ) :
    Option (List (String × Col) × List (String × Col)) :=
  prepareLoop input_data numerical_cols md normalization []

end

/-- pandas `Series.unique`: the distinct values in first-seen order
(`list(data.unique())` in `CategoricalData.__init__`). -/
def uniqueFS : List String → List String
  | [] => []
  | x :: xs => x :: uniqueFS (xs.filter (fun y => y != x))
termination_by l => l.length
decreasing_by
  simp only [List.length_cons]
  exact Nat.lt_succ_of_le (List.length_filter_le _ _)

/-- The dict built by `CategoricalData._encoder`:
`for i, key in enumerate(self.categories): self.encoder[key] = int(i)`.
The keys inserted — the categories — are distinct, so each insertion
appends, and the dict is the association list pairing each category with
its position. -/
def mkEncoder (l : List String) : List (String × ℕ) :=
  l.zip (List.range l.length)

/-- Python dict lookup on an association list (first matching key). -/
def dictGet (d : List (String × ℕ)) (k : String) : Option ℕ :=
  (d.find? (fun p => p.1 == k)).map (fun p => p.2)

/-- The per-column categorical record built by `CategoricalData.__init__`
in `hermes/data/base_data.py` (the `key` attribute is omitted). -/
structure CategoricalStats : Type where
  categories : List String
  encoder : List (String × ℕ)

/-- `CategoricalData.__init__`: `categories = list(data.unique())`,
then `_encoder` builds the code dict. -/
def categoricalData (data : List String) : CategoricalStats :=
  { categories := uniqueFS data, encoder := mkEncoder (uniqueFS data) }

/-- `Regression._one_hot_encoder`: `data.astype(CategoricalDtype(categories))`
maps values outside `categories` to `NaN`; `pd.get_dummies(data, data.name)`
then yields one indicator column per category, in `categories` order, named
`{column}_{category}`; a row holds `true` exactly in the column of its own
category, and a `NaN` row is all-`false`. Since every category column tests
equality against its own category, the indicator for value `v` and category
`c` is `v == c`. -/
def one_hot (data : List String) (name : String) (categories : List String) :
    List (String × List Bool) :=
  categories.map (fun c => (name ++ "_" ++ c, data.map (fun v => v == c)))

/-- C1: for MINMAX and STD normalization, with the same persisted statistics
and `max ≠ min` (resp. `std ≠ 0`), applying the forward transform and then
the reverse transform returns the original value exactly:
`minmax (minmax x min max false) min max true = x` and
`std (std x mean s false) mean s true = x`. -/
theorem minmax_std_roundtrip (x min_ max_ mean_ std_ : ℝ)
    (hmm : max_ ≠ min_) (hs : std_ ≠ 0) :
    minmax (minmax x min_ max_ false) min_ max_ true = x ∧
    std (std x mean_ std_ false) mean_ std_ true = x := by
  have h1 : max_ - min_ ≠ 0 := sub_ne_zero.mpr hmm
  constructor
  · simp only [minmax, Bool.false_eq_true, if_false, if_true]
    field_simp
  · simp only [std, Bool.false_eq_true, if_false, if_true]
    field_simp

/-- Witness for C1 at `x = 5`, `min = 1`, `max = 3`, `mean = 0`, `std = 2`. -/
theorem minmax_std_roundtrip_witness :
    (3 : ℝ) ≠ 1 ∧ (2 : ℝ) ≠ 0 ∧
    (minmax (minmax 5 1 3 false) 1 3 true = 5 ∧ std (std 5 0 2 false) 0 2 true = 5) :=
  ⟨by norm_num, by norm_num,
    minmax_std_roundtrip 5 1 3 0 2 (by norm_num) (by norm_num)⟩

/-- C2 (code bug): the source's `L2` divides by the square root of the plain
sum of the column, not of the sum of squares: on the column `[3, 4]` the
forward transform yields `3/sqrt 7` and `4/sqrt 7`, and the reverse
transform multiplies by `sqrt 7`, whereas the spec's formula yields
`3/5` and `4/5` (`sqrt (3^2 + 4^2) = 5`); the two values differ. -/
theorem L2_uses_sum_not_sum_of_squares :
    L2 [some 3, some 4] PyVal.pynone false
      = some [some (3 / Real.sqrt 7), some (4 / Real.sqrt 7)] ∧
    L2 [some 3] (PyVal.series [some 3, some 4]) true = some [some (3 * Real.sqrt 7)] ∧
    L2specFormula [some 3, some 4] [] false = [some (3 / 5), some (4 / 5)] ∧
    (3 / Real.sqrt 7 : ℝ) ≠ 3 / 5 := by
  have h25 : Real.sqrt 25 = 5 := by
    rw [show (25 : ℝ) = 5 ^ 2 by norm_num]
    exact Real.sqrt_sq (by norm_num)
  refine ⟨?_, ?_, ?_, ?_⟩
  · simp [L2, mapCol, colSum, nonMissing]
    norm_num
  · simp [L2, mapCol, colSum, nonMissing]
    norm_num
  · simp [L2specFormula, mapCol, sumSq, nonMissing]
    norm_num [h25]
  · intro h
    have h7 : (0 : ℝ) < Real.sqrt 7 := Real.sqrt_pos.mpr (by norm_num)
    have h5 : Real.sqrt 7 = 5 := by
      have := (div_eq_div_iff h7.ne' (by norm_num : (5 : ℝ) ≠ 0)).mp h
      linarith
    have hsq := Real.sq_sqrt (by norm_num : (0 : ℝ) ≤ 7)
    rw [h5] at hsq
    norm_num at hsq

/-- C6: a missing-data method value outside the six defined strategies and a
normalization method value outside the five defined methods both fall
through to the final `else` and return the input unchanged, raising no
error. -/
theorem unknown_method_passthrough (s : PSeries) (key : NumericalStats)
    (data : Col) (cd : NumericalStats) (md nm : ℕ) (r : Bool)
    (hmd : md ∉ [MissingData.MEAN, MissingData.DELETE, MissingData.STD,
      MissingData.MIN, MissingData.MAX, MissingData.MODE])
    (hnm : nm ∉ [Normalization.MINMAX, Normalization.STD, Normalization.L1,
      Normalization.L2, Normalization.ROBUST_SCALER]) :
    missing_data s key md = some s ∧ parameter_tuning data cd nm r = some data := by
  simp only [List.mem_cons, List.not_mem_nil, or_false, not_or] at hmd hnm
  obtain ⟨m1, m2, m3, m4, m5, m6⟩ := hmd
  obtain ⟨n1, n2, n3, n4, n5⟩ := hnm
  constructor
  · simp [missing_data, m1, m2, m3, m4, m5, m6]
  · simp [parameter_tuning, n1, n2, n3, n4, n5]

/-- Witness for C6 at method value 99 on a one-entry series/column. -/
theorem unknown_method_passthrough_witness :
    (99 ∉ [MissingData.MEAN, MissingData.DELETE, MissingData.STD,
      MissingData.MIN, MissingData.MAX, MissingData.MODE]) ∧
    (99 ∉ [Normalization.MINMAX, Normalization.STD, Normalization.L1,
      Normalization.L2, Normalization.ROBUST_SCALER]) ∧
    (missing_data [(0, some 1)] (numericalData [some 1]) 99 = some [(0, some 1)] ∧
      parameter_tuning [some 1] (numericalData [some 1]) 99 true = some [some 1]) :=
  ⟨by decide, by decide,
    unknown_method_passthrough [(0, some 1)] (numericalData [some 1]) [some 1]
      (numericalData [some 1]) 99 99 true (by decide) (by decide)⟩

/-- C10: when `_parameter_tuning` is called with method L1 or L2, the
`reverse` flag is passed positionally into `L1`/`L2`'s `raw_data` parameter
and their own `reverse` parameter keeps its default `False`, so for every
column and either value of the flag the result is the forward L1
(resp. forward L2) normalization of the input, never its inverse. -/
theorem parameter_tuning_L1_L2_always_forward (data : Col) (cd : NumericalStats)
    (r : Bool) :
    parameter_tuning data cd Normalization.L1 r
      = some (mapCol (fun x => x / sumAbs data) data) ∧
    parameter_tuning data cd Normalization.L2 r
      = some (mapCol (fun x => x / Real.sqrt (colSum data)) data) := by
  constructor
  · simp [parameter_tuning, L1, Normalization.L1, Normalization.MINMAX]
  · simp [parameter_tuning, L2, Normalization.L2, Normalization.L1,
      Normalization.MINMAX]

/-- The first-seen distinct values are exactly the values of the column. -/
theorem mem_uniqueFS (l : List String) (y : String) : y ∈ uniqueFS l ↔ y ∈ l := by
  induction l using uniqueFS.induct with
  | case1 => simp [uniqueFS]
  | case2 x xs ih =>
    rw [uniqueFS]
    simp only [List.mem_cons, ih, List.mem_filter, bne_iff_ne, ne_eq]
    by_cases h : y = x <;> simp [h]

/-- The first-seen distinct values are distinct. -/
theorem nodup_uniqueFS (l : List String) : (uniqueFS l).Nodup := by
  induction l using uniqueFS.induct with
  | case1 => simp [uniqueFS]
  | case2 x xs ih =>
    rw [uniqueFS]
    refine List.nodup_cons.mpr ⟨fun hx => ?_, ih⟩
    have := (mem_uniqueFS _ x).mp hx
    simp [List.mem_filter] at this

/-- Finding a key among pairs `(l i, s + i)` returns the pair at the key's
first occurrence. -/
theorem find?_zip_range' (l : List String) (k : String) (s : ℕ) :
    (l.zip (List.range' s l.length)).find? (fun p => p.1 == k)
      = if k ∈ l then some (k, s + l.indexOf k) else none := by
  induction l generalizing s with
  | nil => simp
  | cons a t ih =>
    rw [show (a :: t).length = t.length + 1 from rfl, List.range'_succ]
    by_cases hk : a = k
    · subst hk
      simp [List.find?]
    · rw [List.zip_cons_cons, List.find?_cons_of_neg _ (by simpa using hk), ih (s + 1)]
      by_cases hm : k ∈ t
      · have hne : k ≠ a := fun h => hk h.symm
        simp only [hm, if_true, List.mem_cons, hne, false_or,
          List.indexOf_cons_ne _ (Ne.symm hne)]
        simp only [Option.some.injEq, Prod.mk.injEq, true_and, Nat.succ_eq_add_one]
        omega
      · have hne : ¬k = a := fun h => hk h.symm
        simp [hm, hne]

/-- Dict lookup in the encoder of a category list returns the position of
the key's first occurrence. -/
theorem dictGet_mkEncoder (l : List String) (k : String) :
    dictGet (mkEncoder l) k = if k ∈ l then some (l.indexOf k) else none := by
  rw [dictGet, mkEncoder, show List.range l.length = List.range' 0 l.length from
    List.range_eq_range' l.length, find?_zip_range']
  by_cases hm : k ∈ l <;> simp [hm]

/-- C7: for every categorical column, the fitted `categories` are the
column's distinct values (first-seen order preserved by construction) and
the fitted `encoder` is a bijection from them onto `{0, ..., N-1}`: its
keys are exactly the categories, its codes are exactly `0, ..., N-1` in
that order, and each category's code is its first-seen rank. -/
theorem categorical_encoder_bijection (data : List String) :
    (categoricalData data).categories.Nodup ∧
    (∀ x, x ∈ (categoricalData data).categories ↔ x ∈ data) ∧
    (categoricalData data).encoder.map Prod.fst = (categoricalData data).categories ∧
    (categoricalData data).encoder.map Prod.snd
      = List.range (categoricalData data).categories.length ∧
    (∀ x, x ∈ (categoricalData data).categories →
      dictGet (categoricalData data).encoder x
        = some ((categoricalData data).categories.indexOf x)) := by
  refine ⟨nodup_uniqueFS data, fun x => mem_uniqueFS data x, ?_, ?_, fun x hx => ?_⟩
  · exact List.map_fst_zip _ _ (by simp)
  · exact List.map_snd_zip _ _ (by simp)
  · have hx2 : x ∈ uniqueFS data := hx
    rw [show (categoricalData data).encoder = mkEncoder (uniqueFS data) from rfl,
      dictGet_mkEncoder, if_pos hx2]
    rfl

/-- Witness for C7 on the column `["red", "blue", "red", "green"]`. -/
theorem categorical_encoder_bijection_witness :
    "blue" ∈ (categoricalData ["red", "blue", "red", "green"]).categories ∧
    dictGet (categoricalData ["red", "blue", "red", "green"]).encoder "blue"
      = some ((categoricalData ["red", "blue", "red", "green"]).categories.indexOf "blue") :=
  ⟨by simp [categoricalData, uniqueFS],
    (categorical_encoder_bijection ["red", "blue", "red", "green"]).2.2.2.2 "blue"
      (by simp [categoricalData, uniqueFS])⟩

/-- C8: one-hot encoding of a column against a fitted vocabulary produces
exactly one indicator column per category, in `categories` order, named
`{column}_{category}`; and at every row whose value is in the vocabulary,
exactly one indicator is true (the row of indicators counts one `true`). -/
theorem one_hot_exactly_one (data : List String) (name : String)
    (cats : List String) (j : ℕ) (v : String)
    (hn : cats.Nodup) (hj : data[j]? = some v) (hv : v ∈ cats) :
    (one_hot data name cats).map Prod.fst = cats.map (fun c => name ++ "_" ++ c) ∧
    (one_hot data name cats).length = cats.length ∧
    ((one_hot data name cats).map (fun col => col.2.getD j false)).count true = 1 := by
  refine ⟨?_, ?_, ?_⟩
  · simp [one_hot]
  · simp [one_hot]
  · have hrow : (one_hot data name cats).map (fun col => col.2.getD j false)
        = cats.map (fun c => v == c) := by
      simp only [one_hot, List.map_map]
      refine List.map_congr_left (fun c _ => ?_)
      simp [List.getD_eq_getElem?_getD, hj]
    rw [hrow]
    have hcount : (cats.map (fun c => v == c)).count true
        = cats.countP (fun c => c == v) := by
      rw [List.count, List.countP_map]
      refine List.countP_congr (fun c _ => ?_)
      by_cases h : v = c <;> simp [h, Ne.symm]
    rw [hcount, show (fun c => c == v) = (· == v) from rfl, ← List.count]
    exact List.count_eq_one_of_mem hn hv

/-- Witness for C8: the spec's scenario column
`["red", "blue", "red", "green"]` with its fitted vocabulary, at row 0. -/
theorem one_hot_exactly_one_witness :
    (["red", "blue", "green"] : List String).Nodup ∧
    (["red", "blue", "red", "green"] : List String)[0]? = some "red" ∧
    "red" ∈ (["red", "blue", "green"] : List String) ∧
    ((one_hot ["red", "blue", "red", "green"] "color" ["red", "blue", "green"]).map
        Prod.fst
      = ["color_red", "color_blue", "color_green"] ∧
    (one_hot ["red", "blue", "red", "green"] "color" ["red", "blue", "green"]).length = 3 ∧
    ((one_hot ["red", "blue", "red", "green"] "color" ["red", "blue", "green"]).map
        (fun col => col.2.getD 0 false)).count true = 1) := by
  refine ⟨by decide, by decide, by decide, ?_⟩
  have h := one_hot_exactly_one ["red", "blue", "red", "green"] "color"
    ["red", "blue", "green"] 0 "red" (by decide) (by decide) (by decide)
  refine ⟨?_, by simpa using h.2.1, h.2.2⟩
  rw [h.1]
  decide

/-- A left fold with `min` yields a lower bound that is the seed or a list
element. -/
theorem foldl_min_spec (xs : List ℝ) (init : ℝ) :
    (xs.foldl min init = init ∨ xs.foldl min init ∈ xs) ∧
    xs.foldl min init ≤ init ∧ ∀ x ∈ xs, xs.foldl min init ≤ x := by
  induction xs generalizing init with
  | nil => simp
  | cons b t ih =>
    simp only [List.foldl_cons, List.mem_cons]
    obtain ⟨hmem, hle, hall⟩ := ih (min init b)
    refine ⟨?_, le_trans hle (min_le_left _ _), fun x hx => ?_⟩
    · rcases hmem with h | h
      · rcases min_choice init b with he | he
        · left; rw [h, he]
        · right; left; rw [h, he]
      · right; right; exact h
    · rcases hx with rfl | hx
      · exact le_trans hle (min_le_right _ _)
      · exact hall x hx

/-- A left fold with `max` yields an upper bound that is the seed or a list
element. -/
theorem foldl_max_spec (xs : List ℝ) (init : ℝ) :
    (xs.foldl max init = init ∨ xs.foldl max init ∈ xs) ∧
    init ≤ xs.foldl max init ∧ ∀ x ∈ xs, x ≤ xs.foldl max init := by
  induction xs generalizing init with
  | nil => simp
  | cons b t ih =>
    simp only [List.foldl_cons, List.mem_cons]
    obtain ⟨hmem, hle, hall⟩ := ih (max init b)
    refine ⟨?_, le_trans (le_max_left _ _) hle, fun x hx => ?_⟩
    · rcases hmem with h | h
      · rcases max_choice init b with he | he
        · left; rw [h, he]
        · right; left; rw [h, he]
      · right; right; exact h
    · rcases hx with rfl | hx
      · exact le_trans (le_max_right _ _) hle
      · exact hall x hx

/-- On a non-empty list, `lmin` returns an element that bounds the list
from below. -/
theorem lmin_spec (l : List ℝ) (h : l ≠ []) :
    ∃ a, lmin l = some a ∧ a ∈ l ∧ ∀ x ∈ l, a ≤ x := by
  match l, h with
  | x :: xs, _ =>
    obtain ⟨hmem, hle, hall⟩ := foldl_min_spec xs x
    refine ⟨xs.foldl min x, rfl, ?_, fun y hy => ?_⟩
    · rcases hmem with hh | hh
      · rw [hh]; exact List.mem_cons_self x xs
      · exact List.mem_cons_of_mem x hh
    · rcases List.mem_cons.mp hy with rfl | hy
      · exact hle
      · exact hall y hy

/-- On a non-empty list, `lmax` returns an element that bounds the list
from above. -/
theorem lmax_spec (l : List ℝ) (h : l ≠ []) :
    ∃ b, lmax l = some b ∧ b ∈ l ∧ ∀ x ∈ l, x ≤ b := by
  match l, h with
  | x :: xs, _ =>
    obtain ⟨hmem, hle, hall⟩ := foldl_max_spec xs x
    refine ⟨xs.foldl max x, rfl, ?_, fun y hy => ?_⟩
    · rcases hmem with hh | hh
      · rw [hh]; exact List.mem_cons_self x xs
      · exact List.mem_cons_of_mem x hh
    · rcases List.mem_cons.mp hy with rfl | hy
      · exact hle
      · exact hall y hy

/-- The mean of a non-empty list lies between any lower and upper bound of
its elements. -/
theorem lmean_between (l : List ℝ) (a b : ℝ) (h : l ≠ [])
    (ha : ∀ x ∈ l, a ≤ x) (hb : ∀ x ∈ l, x ≤ b) :
    a ≤ l.sum / l.length ∧ l.sum / l.length ≤ b := by
  have hlen : 0 < (l.length : ℝ) := by
    have : 0 < l.length := List.length_pos.mpr h
    exact_mod_cast this
  constructor
  · rw [le_div_iff hlen]
    have := List.card_nsmul_le_sum l a ha
    rw [nsmul_eq_mul] at this
    linarith
  · rw [div_le_iff hlen]
    have := List.sum_le_card_nsmul l b hb
    rw [nsmul_eq_mul] at this
    linarith

/-- Membership is preserved by sorted insertion. -/
theorem mem_insortS (a : ℝ) (l : List ℝ) (y : ℝ) :
    y ∈ insortS a l ↔ y = a ∨ y ∈ l := by
  induction l with
  | nil => simp [insortS]
  | cons b t ih =>
    rw [insortS]
    by_cases hab : a ≤ b
    · simp [hab]
    · simp only [hab, if_false, List.mem_cons, ih]
      tauto

/-- Sorted insertion grows the length by one. -/
theorem length_insortS (a : ℝ) (l : List ℝ) :
    (insortS a l).length = l.length + 1 := by
  induction l with
  | nil => rfl
  | cons b t ih =>
    rw [insortS]
    by_cases hab : a ≤ b <;> simp [hab, ih]

/-- Insertion sort preserves membership. -/
theorem mem_isort (l : List ℝ) (y : ℝ) : y ∈ isort l ↔ y ∈ l := by
  induction l with
  | nil => simp [isort]
  | cons a t ih => rw [isort, mem_insortS, ih, List.mem_cons]

/-- Insertion sort preserves length. -/
theorem length_isort (l : List ℝ) : (isort l).length = l.length := by
  induction l with
  | nil => rfl
  | cons a t ih => rw [isort, length_insortS, ih, List.length_cons]

/-- The median of a non-empty list lies between any lower and upper bound
of its elements. -/
theorem lmedian_between (l : List ℝ) (a b : ℝ) (h : l ≠ [])
    (ha : ∀ x ∈ l, a ≤ x) (hb : ∀ x ∈ l, x ≤ b) :
    ∃ d, lmedian l = some d ∧ a ≤ d ∧ d ≤ b := by
  have hlen : 1 ≤ l.length := List.length_pos.mpr h
  have h1 : (l.length - 1) / 2 < (isort l).length := by rw [length_isort]; omega
  have h2 : l.length / 2 < (isort l).length := by rw [length_isort]; omega
  have e1 : (isort l).getD ((l.length - 1) / 2) 0 = (isort l).get ⟨_, h1⟩ :=
    List.getD_eq_get _ _ h1
  have e2 : (isort l).getD (l.length / 2) 0 = (isort l).get ⟨_, h2⟩ :=
    List.getD_eq_get _ _ h2
  have m1 : (isort l).get ⟨_, h1⟩ ∈ l := (mem_isort l _).mp (List.get_mem _ _ h1)
  have m2 : (isort l).get ⟨_, h2⟩ ∈ l := (mem_isort l _).mp (List.get_mem _ _ h2)
  refine ⟨_, by rw [lmedian, if_neg h], ?_, ?_⟩
  · rw [e1, e2]
    have := ha _ m1
    have := ha _ m2
    linarith
  · rw [e1, e2]
    have := hb _ m1
    have := hb _ m2
    linarith

/-- Wrapping values as a fully present column and reducing again is the
identity. -/
theorem nonMissing_map_some (l : List ℝ) : nonMissing (l.map some) = l := by
  induction l with
  | nil => rfl
  | cons a t ih =>
    show ((a :: t).map some).reduceOption = a :: t
    rw [List.map_cons, List.reduceOption_cons_of_some]
    exact congrArg (a :: ·) ih

/-- C5 (as amended): numeric statistics extraction never fails.
On a column with zero non-missing values every statistic is `NaN`
(`none`) — the source raises no `EmptyColumnError`, which does not exist in
the repository. On a column with at least one non-missing value it computes
mean, min, max and median over the non-missing values (std additionally
needs two of them, matching pandas `ddof=1`), and the statistics depend
only on the non-missing values, i.e. the missing entries are ignored. -/
theorem numericalData_never_fails (c : Col) :
    (nonMissing c = [] →
      numericalData c
        = { mean_ := none, min_ := none, max_ := none, std_ := none, var_ := none,
            median_ := none }) ∧
    (nonMissing c ≠ [] →
      (numericalData c).mean_
          = some ((nonMissing c).sum / (nonMissing c).length) ∧
      (∃ a, (numericalData c).min_ = some a ∧ a ∈ nonMissing c ∧
        ∀ x ∈ nonMissing c, a ≤ x) ∧
      (∃ b, (numericalData c).max_ = some b ∧ b ∈ nonMissing c ∧
        ∀ x ∈ nonMissing c, x ≤ b) ∧
      ((numericalData c).median_).isSome = true) ∧
    (2 ≤ (nonMissing c).length → ((numericalData c).std_).isSome = true) ∧
    numericalData c = numericalData ((nonMissing c).map some) := by
  refine ⟨fun h => ?_, fun h => ⟨?_, ?_, ?_, ?_⟩, fun h => ?_, ?_⟩
  · simp [numericalData, h, lmean, lmin, lmax, lstd, lmedian]
  · show lmean (nonMissing c) = _
    rw [lmean, if_neg h]
  · exact lmin_spec _ h
  · exact lmax_spec _ h
  · show (lmedian (nonMissing c)).isSome = true
    rw [lmedian, if_neg h]
    rfl
  · show (lstd (nonMissing c)).isSome = true
    rw [lstd, if_neg (by omega)]
    rfl
  · show numericalData c = _
    rw [numericalData, numericalData, nonMissing_map_some]

/-- Witness for C5 on the columns `[some 1, none, some 3]` and `[none]`. -/
theorem numericalData_never_fails_witness :
    (nonMissing ([some 1, none, some 3] : Col) ≠ []) ∧
    (numericalData ([some 1, none, some 3] : Col)).mean_
      = some ((nonMissing ([some 1, none, some 3] : Col)).sum
          / (nonMissing ([some 1, none, some 3] : Col)).length) ∧
    (nonMissing ([none] : Col) = []) ∧
    numericalData ([none] : Col)
      = { mean_ := none, min_ := none, max_ := none, std_ := none, var_ := none,
          median_ := none } :=
  ⟨by simp [nonMissing],
    ((numericalData_never_fails [some 1, none, some 3]).2.1 (by simp [nonMissing])).1,
    by simp [nonMissing],
    (numericalData_never_fails [none]).1 (by simp [nonMissing])⟩

/-- C5 counterexample to the claim as stated: on a column with zero
non-missing values the constructor does not fail with any error — it
returns a statistics record whose every field is `NaN` (`none`). -/
theorem numericalData_empty_column_no_error :
    numericalData ([none, none] : Col)
      = { mean_ := none, min_ := none, max_ := none, std_ := none, var_ := none,
          median_ := none } := by
  have h : nonMissing ([none, none] : Col) = [] := by simp [nonMissing]
  simp [numericalData, h, lmean, lmin, lmax, lstd, lmedian]

/-- C9: for every column with at least one non-missing value, the computed
statistics satisfy `min ≤ median ≤ max`, `min ≤ mean ≤ max`, and the
variance is exactly the square of the standard deviation. -/
theorem stats_invariants (c : Col) (h : nonMissing c ≠ []) :
    ∃ a d b m, (numericalData c).min_ = some a ∧
      (numericalData c).median_ = some d ∧
      (numericalData c).max_ = some b ∧
      (numericalData c).mean_ = some m ∧
      a ≤ d ∧ d ≤ b ∧ a ≤ m ∧ m ≤ b ∧
      (numericalData c).var_ = ((numericalData c).std_).map (fun s => s ^ 2) := by
  obtain ⟨a, hmin, hamem, ha⟩ := lmin_spec _ h
  obtain ⟨b, hmax, hbmem, hb⟩ := lmax_spec _ h
  obtain ⟨d, hmed, had, hdb⟩ := lmedian_between _ a b h ha hb
  obtain ⟨ham, hmb⟩ := lmean_between _ a b h ha hb
  have hmean : (numericalData c).mean_
      = some ((nonMissing c).sum / (nonMissing c).length) := by
    show lmean (nonMissing c) = _
    rw [lmean, if_neg h]
  exact ⟨a, d, b, _, hmin, hmed, hmax, hmean, had, hdb, ham, hmb, rfl⟩

/-- Witness for C9 on the column `[some 1, none, some 3]`. -/
theorem stats_invariants_witness :
    (nonMissing ([some 1, none, some 3] : Col) ≠ []) ∧
    (∃ a d b m,
      (numericalData ([some 1, none, some 3] : Col)).min_ = some a ∧
      (numericalData ([some 1, none, some 3] : Col)).median_ = some d ∧
      (numericalData ([some 1, none, some 3] : Col)).max_ = some b ∧
      (numericalData ([some 1, none, some 3] : Col)).mean_ = some m ∧
      a ≤ d ∧ d ≤ b ∧ a ≤ m ∧ m ≤ b ∧
      (numericalData ([some 1, none, some 3] : Col)).var_
        = ((numericalData ([some 1, none, some 3] : Col)).std_).map (fun s => s ^ 2)) :=
  ⟨by simp [nonMissing],
    stats_invariants [some 1, none, some 3] (by simp [nonMissing])⟩

/-- Column lookup steps through the head entry. -/
theorem lookupCol_cons (p : String × Col) (t : List (String × Col)) (name : String) :
    lookupCol (p :: t) name = if p.1 == name then some p.2 else lookupCol t name := by
  cases hpq : (p.1 == name) <;> simp [lookupCol, List.find?, hpq]

/-- Updating one column leaves lookups of other names unchanged. -/
theorem lookupCol_updateCol_ne (df : List (String × Col)) (i name : String) (c : Col)
    (h : name ≠ i) : lookupCol (updateCol df i c) name = lookupCol df name := by
  induction df with
  | nil => rfl
  | cons p t ih =>
    rw [updateCol, List.map_cons, lookupCol_cons, lookupCol_cons]
    have hfst : (if p.1 == i then (p.1, c) else p).1 = p.1 := by
      by_cases hpi : (p.1 == i) = true <;> simp [hpi]
    rw [hfst]
    by_cases hpn : (p.1 == name) = true
    · have hp : p.1 = name := by simpa using hpn
      have hpi : (p.1 == i) = false := by
        rw [hp]
        simpa using h
      simp [hpn, hpi]
    · rw [if_neg hpn, if_neg hpn]
      exact ih

/-- Updating a present column makes its lookup return the new value. -/
theorem lookupCol_updateCol_self (df : List (String × Col)) (i : String) (c d : Col)
    (h : lookupCol df i = some d) : lookupCol (updateCol df i c) i = some c := by
  induction df with
  | nil => simp [lookupCol] at h
  | cons p t ih =>
    rw [updateCol, List.map_cons, lookupCol_cons]
    by_cases hpi : (p.1 == i) = true
    · simp [hpi]
    · rw [lookupCol_cons, if_neg hpi] at h
      simp only [if_neg hpi]
      exact ih h

/-- What the per-column loop of `prepare_data` does to the caller's
`input_data`: a column not listed is untouched; a listed column is replaced
by its missing-data-step output, realigned on the frame's index. -/
theorem prepareLoop_lookup (md norm : ℕ) (cols : List String) :
    ∀ df acc dfOut out, cols.Nodup →
      prepareLoop df cols md norm acc = some (dfOut, out) →
      (∀ name, name ∉ cols → lookupCol dfOut name = lookupCol df name) ∧
      (∀ name c, name ∈ cols → lookupCol df name = some c →
        ∃ s, missing_data (toSeries c) (numericalData c) md = some s ∧
          lookupCol dfOut name = some (align c.length s)) := by
  induction cols with
  | nil =>
    intro df acc dfOut out hnd hres
    rw [prepareLoop] at hres
    obtain rfl : df = dfOut := congrArg Prod.fst (Option.some.inj hres)
    exact ⟨fun name _ => rfl,
      fun name c hmem _ => absurd hmem (List.not_mem_nil name)⟩
  | cons i rest ih =>
    intro df acc dfOut out hnd hres
    rw [prepareLoop] at hres
    split at hres
    · exact absurd hres (by simp)
    · rename_i col hcol
      split at hres
      · exact absurd hres (by simp)
      · rename_i s hmd2
        split at hres
        · exact absurd hres (by simp)
        · rename_i tuned htun
          have hni : i ∉ rest := (List.nodup_cons.mp hnd).1
          have hnd2 : rest.Nodup := (List.nodup_cons.mp hnd).2
          obtain ⟨h1, h2⟩ := ih (updateCol df i (align col.length s))
            (acc ++ [(i, tuned)]) dfOut out hnd2 hres
          constructor
          · intro name hname
            have hne : name ≠ i := fun hh => hname (hh ▸ List.mem_cons_self i rest)
            have hnr : name ∉ rest := fun hh => hname (List.mem_cons_of_mem _ hh)
            rw [h1 name hnr, lookupCol_updateCol_ne _ _ _ _ hne]
          · intro name c hmem hlook
            rcases List.mem_cons.mp hmem with rfl | hmr
            · have hc : c = col := by
                rw [hlook] at hcol
                exact Option.some.inj hcol
              subst hc
              refine ⟨s, hmd2, ?_⟩
              rw [h1 name hni]
              exact lookupCol_updateCol_self df name _ c hcol
            · have hne : name ≠ i := fun hh => hni (hh ▸ hmr)
              exact h2 name c hmr
                (by rw [lookupCol_updateCol_ne _ _ _ _ hne]; exact hlook)

/-- Index labels produced from start `m` are at least `m`. -/
theorem toSeriesAux_mem_ge (c : Col) (m : ℕ) : ∀ p ∈ toSeriesAux m c, m ≤ p.1 := by
  induction c generalizing m with
  | nil => intro p hp; simp [toSeriesAux] at hp
  | cons x t ih =>
    intro p hp
    rw [toSeriesAux] at hp
    rcases List.mem_cons.mp hp with rfl | hp2
    · exact le_refl m
    · exact le_trans (Nat.le_succ m) (ih (m + 1) p hp2)

/-- Looking an index label up in a dropped-`NaN` series returns the pair at
that label when the underlying column holds a value there, and nothing
otherwise. -/
theorem find?_dropna_toSeriesAux (cl : Col) (m j : ℕ) :
    (dropna (toSeriesAux m cl)).find? (fun p => p.1 == m + j)
      = match (cl[j]?) with
        | some (some v) => some (m + j, some v)
        | _ => none := by
  induction cl generalizing m j with
  | nil => simp [toSeriesAux, dropna]
  | cons x t ih =>
    cases x with
    | some v =>
      rw [toSeriesAux, dropna, List.filter_cons_of_pos (by simp)]
      cases j with
      | zero =>
        rw [List.find?_cons_of_pos _ (by simp)]
        simp
      | succ j2 =>
        rw [List.find?_cons_of_neg _ (by simp)]
        rw [show m + (j2 + 1) = (m + 1) + j2 by omega]
        have hih := ih (m + 1) j2
        rw [dropna] at hih
        rw [hih]
        simp
    | none =>
      rw [toSeriesAux, dropna, List.filter_cons_of_neg (by simp)]
      cases j with
      | zero =>
        have hnone : ((toSeriesAux (m + 1) t).filter (fun p => p.2.isSome)).find?
            (fun p => p.1 == m + 0) = none := by
          apply List.find?_eq_none.mpr
          intro p hp
          have hmem : p ∈ toSeriesAux (m + 1) t := List.mem_of_mem_filter hp
          have := toSeriesAux_mem_ge t (m + 1) p hmem
          simp only [beq_iff_eq]
          omega
        rw [hnone]
        simp
      | succ j2 =>
        rw [show m + (j2 + 1) = (m + 1) + j2 by omega]
        have hih := ih (m + 1) j2
        rw [dropna] at hih
        rw [hih]
        simp

/-- Dropping the missing entries of a column and re-aligning the result on
the original index is the identity: the dropped rows come back as missing.
This is exactly what `input_data[i] = data.dropna(...)` does under the
`DELETE` strategy. -/
theorem align_dropna_toSeries (cl : Col) : align cl.length (dropna (toSeries cl)) = cl := by
  apply List.ext_getElem?
  intro i
  rw [align, List.getElem?_map]
  by_cases hi : i < cl.length
  · rw [List.getElem?_range hi]
    have hfind := find?_dropna_toSeriesAux cl 0 i
    rw [Nat.zero_add] at hfind
    rw [toSeries]
    cases hc : (cl[i]?) with
    | none =>
      exact absurd hc (by simp [hi])
    | some x =>
      rw [hc] at hfind
      cases x with
      | some v =>
        simp only [Option.map_some']
        rw [hfind]
      | none =>
        simp only [Option.map_some']
        rw [hfind]
  · have h1 : (List.range cl.length)[i]? = none := by
      apply List.getElem?_eq_none
      simpa using Nat.le_of_not_lt hi
    have h2 : (cl[i]?) = none := by
      apply List.getElem?_eq_none
      exact Nat.le_of_not_lt hi
    rw [h1, h2]
    rfl

/-- C3 (code bug): under the DELETE strategy no row is ever removed. The
missing-data step returns `data.dropna(...)`, but assigning it back into
`input_data[i]` realigns it on the frame's index, so the dropped entries
come back as missing (first conjunct: this composition is the identity on
every column). Concretely, preparing the dataset with columns
`a = [1, NaN, 3]` and `b = [4, 5, 6]` under DELETE (with a pass-through
normalization sentinel) yields an output whose columns still have three
rows, with row 1 present everywhere and still missing in `a` — not the two
fully-present rows the claim requires. -/
theorem delete_strategy_drops_no_rows :
    (∀ cl : Col, align cl.length (dropna (toSeries cl)) = cl) ∧
    prepare_data
        [("a", [some 1, none, some 3]), ("b", [some 4, some 5, some 6])]
        ["a", "b"] 99 MissingData.DELETE
      = some ([("a", [some 1, none, some 3]), ("b", [some 4, some 5, some 6])],
          [("a", [some 1, none, some 3]), ("b", [some 4, some 5, some 6])]) :=
  ⟨align_dropna_toSeries, rfl⟩

/-- C4 (as amended): `prepare_data` mutates the caller's input dataset.
After the call, every column not listed for processing is unchanged, and
every processed numerical column has been replaced by the output of the
missing-data step on the original column, realigned on the frame's index
(so, e.g., under a fill strategy its missing entries now hold the fill
value). -/
theorem prepare_data_mutates_input (df : List (String × Col)) (cols : List String)
    (norm md : ℕ) (dfOut out : List (String × Col)) (hnd : cols.Nodup)
    (hres : prepare_data df cols norm md = some (dfOut, out)) :
    (∀ name, name ∉ cols → lookupCol dfOut name = lookupCol df name) ∧
    (∀ name cl, name ∈ cols → lookupCol df name = some cl →
      ∃ s, missing_data (toSeries cl) (numericalData cl) md = some s ∧
        lookupCol dfOut name = some (align cl.length s)) :=
  prepareLoop_lookup md norm cols df [] dfOut out hnd hres

/-- Witness for C4 on a one-column dataset under the DELETE strategy. -/
theorem prepare_data_mutates_input_witness :
    (["a"] : List String).Nodup ∧
    prepare_data [("a", ([some 1, none, some 3] : Col))] ["a"] 99 MissingData.DELETE
      = some ([("a", ([some 1, none, some 3] : Col))],
          [("a", ([some 1, none, some 3] : Col))]) ∧
    ("a" ∈ (["a"] : List String)) ∧
    lookupCol [("a", ([some 1, none, some 3] : Col))] "a"
      = some [some 1, none, some 3] ∧
    (∃ s, missing_data (toSeries ([some 1, none, some 3] : Col))
        (numericalData [some 1, none, some 3]) MissingData.DELETE = some s ∧
      lookupCol [("a", ([some 1, none, some 3] : Col))] "a"
        = some (align ([some 1, none, some 3] : Col).length s)) := by
  refine ⟨by simp, rfl, by simp, rfl, ?_⟩
  exact (prepare_data_mutates_input [("a", [some 1, none, some 3])] ["a"] 99
    MissingData.DELETE [("a", [some 1, none, some 3])]
    [("a", [some 1, none, some 3])] (by simp) rfl).2 "a"
    [some 1, none, some 3] (by simp) rfl

/-- C4 counterexample to the claim as stated: preparing the one-column
dataset `a = [1, NaN, 3]` with the MEAN strategy (and a pass-through
normalization sentinel) leaves the caller's `input_data` holding
`a = [1, 2, 3]` — the missing entry was overwritten with the mean in
place, so the input dataset is not unchanged. -/
theorem prepare_data_mutates_input_example :
    prepare_data [("a", ([some 1, none, some 3] : Col))] ["a"] 99 MissingData.MEAN
      = some ([("a", [some 1, some 2, some 3])], [("a", [some 1, some 2, some 3])]) ∧
    [("a", ([some 1, some 2, some 3] : Col))] ≠ [("a", [some 1, none, some 3])] := by
  constructor
  · have hm : (numericalData ([some 1, none, some 3] : Col)).mean_ = some 2 := by
      show lmean (nonMissing [some 1, none, some 3]) = some 2
      rw [show nonMissing [some 1, none, some 3] = [(1 : ℝ), 3] from rfl, lmean,
        if_neg (by simp)]
      norm_num [List.sum_cons, List.sum_nil]
    have hmd : missing_data (toSeries ([some 1, none, some 3] : Col))
        (numericalData [some 1, none, some 3]) MissingData.MEAN
        = some [(0, some 1), (1, some 2), (2, some 3)] := by
      rw [missing_data, if_pos rfl, hm]
      rfl
    have hlook : lookupCol [("a", ([some 1, none, some 3] : Col))] "a"
        = some [some 1, none, some 3] := rfl
    have halign : align ([some 1, none, some 3] : Col).length
        [(0, some 1), (1, some 2), (2, some 3)] = [some 1, some 2, some 3] := rfl
    have htun : parameter_tuning ([some 1, some 2, some 3] : Col)
        (numericalData [some 1, none, some 3]) 99 false
        = some [some 1, some 2, some 3] := rfl
    rw [prepare_data, prepareLoop, hlook]
    simp only [hmd, halign, htun]
    rfl
  · intro hh
    simp only [List.cons.injEq, Prod.mk.injEq, and_true, true_and] at hh
    exact Option.some_ne_none 2 hh
